import Mathlib

/-!
Shallow embedding of the core algorithms of the marianalyzer repository
(qa/retriever.py, aggregation/clusterer.py, extraction/normalizer.py,
indexing/bm25_index.py, indexing/vector_index.py, llm/embedder.py,
qa/pattern_qa.py), together with proofs checking the specification's
claims against them.

Modelling conventions:
- Python floats are modelled by exact rationals (ℚ).
- Python dicts (insertion ordered) are modelled by association lists
  with dict update semantics (update in place keeps the position,
  fresh keys are appended at the end).
- Python's `sorted` is a stable sort; it is modelled by Mathlib's
  stable `List.insertionSort` (any two stable sorts with respect to
  the same total preorder agree extensionally).
- Chunks are identified by their integer ids (the code converts them
  to strings with `str(...)`, which is injective on ids).
-/

namespace Marianalyzer

/-! ### qa/retriever.py — HybridRetriever._merge_results

`chunk_scores` is a Python dict from chunk id to float; `chunk_scores.get(c, 0)`
reads with default 0 and `chunk_scores[c] = v` writes (insertion ordered). -/

/-- `chunk_scores.get(key, 0)`. -/
def dictGet : List (Nat × ℚ) → Nat → ℚ
  | [], _ => 0
  | p :: rest, key => if p.1 = key then p.2 else dictGet rest key

/-- `chunk_scores[key] = v`: update in place if present, else append. -/
def dictSet : List (Nat × ℚ) → Nat → ℚ → List (Nat × ℚ)
  | [], key, v => [(key, v)]
  | p :: rest, key, v =>
    if p.1 = key then (key, v) :: rest else p :: dictSet rest key v

/-- One of the two RRF accumulation loops of `_merge_results`:
`for rank, item in enumerate(results, start=1):
   chunk_scores[id] = chunk_scores.get(id, 0) + 1.0 / (k + rank)`
with the RRF constant `k = 60` fixed in the source. -/
def rrfAddFrom : List (Nat × ℚ) → Nat → List Nat → List (Nat × ℚ)
  | d, _, [] => d
  | d, rank, c :: cs =>
      rrfAddFrom (dictSet d c (dictGet d c + 1 / (60 + (rank : ℚ)))) (rank + 1) cs

/-- The fully accumulated `chunk_scores` dict: BM25 results first, then
vector results, both with ranks starting at 1. -/
def rrfScores (bm25_results vector_results : List Nat) : List (Nat × ℚ) :=
  rrfAddFrom (rrfAddFrom [] 1 bm25_results) 1 vector_results

/-- `HybridRetriever._merge_results`, on chunk ids.  `chunk_lookup` holds every
BM25 chunk and (inside the vector loop) every vector chunk, so the final
membership filter is over the union of the two id lists.
`sorted(..., key=lambda x: x[1], reverse=True)` is a stable descending sort
by score, modelled by the stable `insertionSort` with relation
`fun a b => b.2 ≤ a.2`. -/
def merge_results (bm25_results vector_results : List Nat) (top_k : Nat) :
    List (Nat × ℚ) :=
  let chunk_scores := rrfScores bm25_results vector_results
  let sorted_chunks :=
    (chunk_scores.insertionSort (fun a b => b.2 ≤ a.2)).take top_k
  sorted_chunks.filter
    (fun p => bm25_results.contains p.1 || vector_results.contains p.1)

/-- The fused score the specification ascribes to a chunk id: the sum, over
the input lists containing it, of `1 / (60 + rank)` with 1-based rank. -/
def rrfSpecScore (bm25_results vector_results : List Nat) (c : Nat) : ℚ :=
  (if bm25_results.contains c
     then 1 / (60 + ((bm25_results.indexOf c : ℚ) + 1)) else 0) +
  (if vector_results.contains c
     then 1 / (60 + ((vector_results.indexOf c : ℚ) + 1)) else 0)

/-! Basic association-list lemmas. -/

theorem dictGet_dictSet (d : List (Nat × ℚ)) (k k' : Nat) (v : ℚ) :
    dictGet (dictSet d k v) k' = if k' = k then v else dictGet d k' := by
  induction d with
  | nil =>
      by_cases h : k' = k
      · simp [dictSet, dictGet, h]
      · have h2 : ¬ k = k' := fun hh => h hh.symm
        simp [dictSet, dictGet, h, h2]
  | cons p rest ih =>
      by_cases hpk : p.1 = k
      · by_cases h : k' = k
        · simp [dictSet, dictGet, hpk, h]
        · have h2 : ¬ k = k' := fun hh => h hh.symm
          have h3 : ¬ p.1 = k' := fun hh => h (hh.symm.trans hpk)
          simp [dictSet, dictGet, hpk, h, h2, h3]
      · by_cases hp : p.1 = k'
        · have h : ¬ k' = k := fun hh => hpk (hp.trans hh)
          simp [dictSet, dictGet, hpk, hp, h]
        · simp [dictSet, dictGet, hpk, hp, ih]

theorem keys_dictSet (d : List (Nat × ℚ)) (k : Nat) (v : ℚ) :
    (dictSet d k v).map Prod.fst =
      if k ∈ d.map Prod.fst then d.map Prod.fst else d.map Prod.fst ++ [k] := by
  induction d with
  | nil => simp [dictSet]
  | cons p rest ih =>
      by_cases hpk : p.1 = k
      · simp [dictSet, hpk]
      · have : ¬ k = p.1 := fun h => hpk h.symm
        by_cases hk : k ∈ rest.map Prod.fst <;> simp [dictSet, hpk, this, hk, ih]

theorem keys_dictSet_mem (d : List (Nat × ℚ)) (k : Nat) (v : ℚ)
    (hk : k ∈ d.map Prod.fst) :
    (dictSet d k v).map Prod.fst = d.map Prod.fst := by
  rw [keys_dictSet, if_pos hk]

theorem keys_dictSet_not_mem (d : List (Nat × ℚ)) (k : Nat) (v : ℚ)
    (hk : k ∉ d.map Prod.fst) :
    (dictSet d k v).map Prod.fst = d.map Prod.fst ++ [k] := by
  rw [keys_dictSet, if_neg hk]

theorem keys_dictSet_nodup (d : List (Nat × ℚ)) (k : Nat) (v : ℚ)
    (h : (d.map Prod.fst).Nodup) : ((dictSet d k v).map Prod.fst).Nodup := by
  by_cases hk : k ∈ d.map Prod.fst
  · rw [keys_dictSet_mem d k v hk]; exact h
  · rw [keys_dictSet_not_mem d k v hk]
    have hdj : List.Disjoint (d.map Prod.fst) [k] := by
      intro a ha hb
      have hak : a = k := by simpa using hb
      exact hk (hak ▸ ha)
    exact List.Nodup.append h (List.nodup_singleton k) hdj

theorem keys_rrfAddFrom_nodup (ids : List Nat) (d : List (Nat × ℚ)) (r : Nat)
    (h : (d.map Prod.fst).Nodup) :
    ((rrfAddFrom d r ids).map Prod.fst).Nodup := by
  induction ids generalizing d r with
  | nil => simpa [rrfAddFrom]
  | cons a cs ih => exact ih _ _ (keys_dictSet_nodup d a _ h)

theorem mem_dictGet (d : List (Nat × ℚ)) (p : Nat × ℚ)
    (hnd : (d.map Prod.fst).Nodup) (hp : p ∈ d) : dictGet d p.1 = p.2 := by
  induction d with
  | nil => cases hp
  | cons q rest ih =>
      rw [List.map_cons] at hnd
      have hnd2 := List.nodup_cons.mp hnd
      rcases List.mem_cons.mp hp with h | h
      · simp [dictGet, h]
      · have hq : ¬ q.1 = p.1 := by
          intro hqe
          apply hnd2.1
          rw [hqe]
          exact List.mem_map_of_mem Prod.fst h
        simp [dictGet, hq]
        exact ih hnd2.2 h

theorem dictGet_rrfAddFrom (ids : List Nat) (d : List (Nat × ℚ)) (r : Nat)
    (c : Nat) (hnd : ids.Nodup) :
    dictGet (rrfAddFrom d r ids) c =
      dictGet d c +
        (if c ∈ ids then 1 / (60 + ((r : ℚ) + (ids.indexOf c : ℚ))) else 0) := by
  induction ids generalizing d r with
  | nil => simp [rrfAddFrom]
  | cons a cs ih =>
      have hnd' := (List.nodup_cons.mp hnd).2
      have hna : a ∉ cs := (List.nodup_cons.mp hnd).1
      rw [rrfAddFrom, ih _ _ hnd', dictGet_dictSet]
      by_cases hca : c = a
      · subst hca
        simp [hna, List.indexOf_cons_self]
      · have hac : ¬ a = c := fun hh => hca hh.symm
        have hidx : (a :: cs).indexOf c = cs.indexOf c + 1 := by
          simp [List.indexOf_cons, Bool.cond_eq_ite, hac]
        by_cases hmem : c ∈ cs
        · simp only [hca, if_false, List.mem_cons, hmem, or_true, if_true, hidx]
          push_cast
          ring_nf
        · simp [hca, hmem, hac]

theorem keys_rrfAddFrom (ids : List Nat) (d : List (Nat × ℚ)) (r : Nat)
    (hnd : ids.Nodup) :
    (rrfAddFrom d r ids).map Prod.fst =
      d.map Prod.fst ++ ids.filter (fun c => c ∉ d.map Prod.fst) := by
  induction ids generalizing d r with
  | nil => simp [rrfAddFrom]
  | cons a cs ih =>
      have hnd' := (List.nodup_cons.mp hnd).2
      have hna : a ∉ cs := (List.nodup_cons.mp hnd).1
      rw [rrfAddFrom, ih _ _ hnd']
      by_cases hk : a ∈ d.map Prod.fst
      · simp only [keys_dictSet_mem d a _ hk]
        simp [List.filter_cons, hk]
      · simp only [keys_dictSet_not_mem d a _ hk]
        have hfeq : cs.filter (fun c => c ∉ (d.map Prod.fst ++ [a])) =
            cs.filter (fun c => c ∉ d.map Prod.fst) := by
          apply List.filter_congr
          intro x hx
          have hxa : ¬ x = a := fun hh => hna (hh ▸ hx)
          simp [hxa]
        simp only [hfeq]
        simp [List.filter_cons, hk]

/-- Every entry of the merged output is an entry of the accumulated score dict. -/
theorem mem_scores_of_mem_merge (bm vec : List Nat) (top_k : Nat)
    (p : Nat × ℚ) (hp : p ∈ merge_results bm vec top_k) :
    p ∈ rrfScores bm vec := by
  have h1 : p ∈ ((rrfScores bm vec).insertionSort
      (fun a b => b.2 ≤ a.2)).take top_k := List.mem_of_mem_filter hp
  have h2 := List.mem_of_mem_take h1
  exact (List.mem_insertionSort _).mp h2

/-- **C1.** Reciprocal rank fusion score: every (chunk id, score) pair in the
merged output carries the sum, over the input lists containing the id, of
`1 / (60 + rank)` with 1-based rank; a chunk at rank 1 in both lists gets
fused score `2 / (60 + 1)`; and fusion is deterministic (running it twice on
identical inputs yields identical ordered output). -/
theorem rrf_fused_score (bm vec : List Nat) (top_k : Nat)
    (hb : bm.Nodup) (hv : vec.Nodup) :
    (∀ p ∈ merge_results bm vec top_k, p.2 = rrfSpecScore bm vec p.1) ∧
    (∀ c p, bm.head? = some c → vec.head? = some c →
        p ∈ merge_results bm vec top_k → p.1 = c → p.2 = 2 / (60 + 1)) ∧
    merge_results bm vec top_k = merge_results bm vec top_k := by
  have hkeys : ((rrfScores bm vec).map Prod.fst).Nodup :=
    keys_rrfAddFrom_nodup vec _ 1 (keys_rrfAddFrom_nodup bm [] 1 (by simp))
  have hget : ∀ c, dictGet (rrfScores bm vec) c = rrfSpecScore bm vec c := by
    intro c
    rw [rrfScores, dictGet_rrfAddFrom vec _ 1 c hv,
      dictGet_rrfAddFrom bm [] 1 c hb, rrfSpecScore]
    simp [dictGet, add_comm]
  have hmain : ∀ p ∈ merge_results bm vec top_k, p.2 = rrfSpecScore bm vec p.1 := by
    intro p hp
    have hps := mem_scores_of_mem_merge bm vec top_k p hp
    rw [← hget p.1]
    exact (mem_dictGet _ p hkeys hps).symm
  refine ⟨hmain, ?_, rfl⟩
  intro c p hbm hvec hp hpc
  have hscore := hmain p hp
  rcases bm with _ | ⟨b0, bt⟩
  · simp at hbm
  rcases vec with _ | ⟨v0, vt⟩
  · simp at hvec
  have hb0 : b0 = c := by simpa using hbm
  have hv0 : v0 = c := by simpa using hvec
  subst hb0; subst hv0; subst hpc
  rw [hscore, rrfSpecScore]
  simp [List.indexOf_cons_self]
  norm_num

/-- Witness for C1 at concrete inputs. -/
theorem rrf_fused_score_witness :
    ([3, 5] : List Nat).Nodup ∧ ([5, 9] : List Nat).Nodup ∧
    ((∀ p ∈ merge_results [3, 5] [5, 9] 10,
        p.2 = rrfSpecScore [3, 5] [5, 9] p.1) ∧
     (∀ c p, ([3, 5] : List Nat).head? = some c →
        ([5, 9] : List Nat).head? = some c →
        p ∈ merge_results [3, 5] [5, 9] 10 → p.1 = c → p.2 = 2 / (60 + 1)) ∧
     merge_results [3, 5] [5, 9] 10 = merge_results [3, 5] [5, 9] 10) :=
  ⟨by decide, by decide, rrf_fused_score [3, 5] [5, 9] 10 (by decide) (by decide)⟩

/-! Stability helpers for the sort model (shared by the RRF and BM25 proofs). -/

theorem pair_sublist_of_mem {α : Type} {p q : α} {l : List α}
    (hp : p ∈ l) (hq : q ∈ l) (hne : p ≠ q) :
    List.Sublist [p, q] l ∨ List.Sublist [q, p] l := by
  induction l with
  | nil => cases hp
  | cons a t ih =>
      rcases List.mem_cons.mp hp with hpa | hpt
      · subst hpa
        have hqt : q ∈ t := by
          rcases List.mem_cons.mp hq with hqa | hqt
          · exact absurd hqa.symm hne
          · exact hqt
        exact Or.inl (List.Sublist.cons₂ p (List.singleton_sublist.mpr hqt))
      · rcases List.mem_cons.mp hq with hqa | hqt
        · subst hqa
          exact Or.inr (List.Sublist.cons₂ q (List.singleton_sublist.mpr hpt))
        · rcases ih hpt hqt with h | h
          · exact Or.inl (List.Sublist.cons _ h)
          · exact Or.inr (List.Sublist.cons _ h)

theorem pair_sublist_nodup_not_swap {α : Type} {p q : α} {l : List α}
    (hnd : l.Nodup) (h1 : List.Sublist [p, q] l) (h2 : List.Sublist [q, p] l) : p = q := by
  induction l with
  | nil => simp at h1
  | cons a t ih =>
      have hnd' := List.nodup_cons.mp hnd
      cases h1 with
      | cons _ h1' =>
          cases h2 with
          | cons _ h2' => exact ih hnd'.2 h1' h2'
          | cons₂ _ h2' =>
              have hqt : q ∈ t := h1'.subset (by simp)
              exact absurd hqt hnd'.1
      | cons₂ _ h1' =>
          cases h2 with
          | cons _ h2' =>
              have hpt : p ∈ t := h2'.subset (by simp)
              exact absurd hpt hnd'.1
          | cons₂ _ h2' => rfl

/-- Stability of the `sorted` model read backwards: if a tied pair appears in
the sorted output of a nodup list, it appears in the same order in the input. -/
theorem stable_tie_insertionSort {α : Type} (r : α → α → Prop) [DecidableRel r]
    {l : List α} {p q : α} (hnd : l.Nodup)
    (hpq : List.Sublist [p, q] (l.insertionSort r)) (hrq : r q p) : List.Sublist [p, q] l := by
  have hnds : (l.insertionSort r).Nodup :=
    ((List.perm_insertionSort r l).nodup_iff).mpr hnd
  have hne : p ≠ q := by
    have hpair : ([p, q] : List α).Nodup := List.Nodup.sublist hpq hnds
    simpa using (List.nodup_cons.mp hpair).1
  have hp : p ∈ l := (List.mem_insertionSort r).mp (hpq.subset (by simp))
  have hq : q ∈ l := (List.mem_insertionSort r).mp (hpq.subset (by simp))
  rcases pair_sublist_of_mem hp hq hne with h | h
  · exact h
  · have hswap : List.Sublist [q, p] (l.insertionSort r) :=
      List.pair_sublist_insertionSort hrq h
    exact absurd (pair_sublist_nodup_not_swap hnds hpq hswap) hne

/-- The best (lowest) 1-based rank of a chunk id in either source list,
as the specification's tie-break describes it. -/
def bestRank (bm vec : List Nat) (c : Nat) : Nat :=
  if c ∈ bm then
    (if c ∈ vec then min (bm.indexOf c + 1) (vec.indexOf c + 1)
     else bm.indexOf c + 1)
  else vec.indexOf c + 1

/-- The ordering the specification claims for the fused output (C5, written
from the spec's words): score descending, ties by best rank in either source
list, then by chunk id. -/
@[reducible] def rrfClaimOrder (bm vec : List Nat) (top_k : Nat) : Prop :=
  (merge_results bm vec top_k).Pairwise (fun p q =>
    q.2 < p.2 ∨ (p.2 = q.2 ∧
      (bestRank bm vec p.1 < bestRank bm vec q.1 ∨
       (bestRank bm vec p.1 = bestRank bm vec q.1 ∧ p.1 < q.1))))

/-- **C5 counterexample.** With BM25 list `[5, 2]` and vector list `[5, 1]`,
ids 2 and 1 tie at score `1/62` with equal best rank 2, so the claimed
tie-break demands id 1 before id 2; the code keeps dict insertion order and
returns id 2 first. -/
theorem rrf_tie_break_counterexample : ¬ rrfClaimOrder [5, 2] [5, 1] 20 := by
  intro h
  rw [rrfClaimOrder] at h
  have heq : merge_results [5, 2] [5, 1] 20 =
      [(5, 2/61), (2, 1/62), (1, 1/62)] := by
    norm_num [merge_results, rrfScores, rrfAddFrom, dictGet, dictSet,
      List.insertionSort, List.orderedInsert]
  rw [heq] at h
  rcases List.pairwise_cons.mp h with ⟨_, h2⟩
  rcases List.pairwise_cons.mp h2 with ⟨h21, _⟩
  have h3 := h21 (1, 1/62) (by simp)
  norm_num [bestRank] at h3

/-- **C5 amended.** The fused output is sorted by summed score descending, and
chunks with equal scores appear in the insertion order of the score
accumulator — every chunk of the BM25 list (in BM25 rank order) before the
vector-only chunks (in vector rank order) — not by best source rank / chunk id. -/
theorem rrf_sort_stable (bm vec : List Nat) (top_k : Nat)
    (hb : bm.Nodup) (hv : vec.Nodup) :
    ((merge_results bm vec top_k).Pairwise (fun p q => q.2 ≤ p.2)) ∧
    (∀ p q, List.Sublist [p, q] (merge_results bm vec top_k) → p.2 = q.2 →
        List.Sublist [p, q] (rrfScores bm vec)) ∧
    ((rrfScores bm vec).map Prod.fst = bm ++ vec.filter (fun c => c ∉ bm)) := by
  haveI hTot : IsTotal (Nat × ℚ) (fun a b => b.2 ≤ a.2) :=
    ⟨fun a b => le_total b.2 a.2⟩
  haveI hTr : IsTrans (Nat × ℚ) (fun a b => b.2 ≤ a.2) :=
    ⟨fun _ _ _ hab hbc => le_trans hbc hab⟩
  have hmerge_sub : List.Sublist (merge_results bm vec top_k)
      ((rrfScores bm vec).insertionSort (fun a b => b.2 ≤ a.2)) := by
    unfold merge_results
    exact (List.filter_sublist _).trans (List.take_sublist _ _)
  refine ⟨?_, ?_, ?_⟩
  · have hsorted : ((rrfScores bm vec).insertionSort
        (fun a b => b.2 ≤ a.2)).Pairwise (fun a b => b.2 ≤ a.2) :=
      List.sorted_insertionSort _ _
    exact hsorted.sublist hmerge_sub
  · intro p q hpq htie
    have hscores_nd : (rrfScores bm vec).Nodup := by
      apply List.Nodup.of_map Prod.fst
      exact keys_rrfAddFrom_nodup vec _ 1 (keys_rrfAddFrom_nodup bm [] 1 (by simp))
    exact stable_tie_insertionSort _ hscores_nd (hpq.trans hmerge_sub) htie.le
  · rw [rrfScores, keys_rrfAddFrom vec _ 1 hv, keys_rrfAddFrom bm [] 1 hb]
    simp

/-- Witness for C5 at concrete inputs. -/
theorem rrf_sort_stable_witness :
    ([5, 2] : List Nat).Nodup ∧ ([5, 1] : List Nat).Nodup ∧
    (((merge_results [5, 2] [5, 1] 20).Pairwise (fun p q => q.2 ≤ p.2)) ∧
     (∀ p q, List.Sublist [p, q] (merge_results [5, 2] [5, 1] 20) → p.2 = q.2 →
         List.Sublist [p, q] (rrfScores [5, 2] [5, 1])) ∧
     ((rrfScores [5, 2] [5, 1]).map Prod.fst =
        [5, 2] ++ [5, 1].filter (fun c => c ∉ ([5, 2] : List Nat)))) :=
  ⟨by decide, by decide, rrf_sort_stable [5, 2] [5, 1] 20 (by decide) (by decide)⟩

/-! ### aggregation/clusterer.py — cluster_requirements

The similarity matrix (the sklearn `cosine_similarity(embeddings_array)`
output, an external library call) is passed as a function argument.
`clusters` is a Python dict from cluster id to member-index list, insertion
ordered, modelled as an association list. -/

/-- `compute_cluster_similarity`: average of all cross-cluster pairwise
similarities; `float(np.mean(similarities)) if similarities else 0.0`. -/
def compute_cluster_similarity (cluster1 cluster2 : List Nat)
    (similarity_matrix : Nat → Nat → ℚ) : ℚ :=
  let similarities :=
    cluster1.flatMap (fun i => cluster2.map (fun j => similarity_matrix i j))
  if similarities.isEmpty then 0
  else similarities.sum / (similarities.length : ℚ)

/-- `list(clusters.keys())`. -/
def cdictKeys (cl : List (Nat × List Nat)) : List Nat := cl.map Prod.fst

/-- `clusters[k]` (callers only read keys that are present). -/
def cdictGet : List (Nat × List Nat) → Nat → List Nat
  | [], _ => []
  | p :: rest, k => if p.1 = k then p.2 else cdictGet rest k

/-- `clusters[k] = v` (in-place update keeps the dict position). -/
def cdictSet : List (Nat × List Nat) → Nat → List Nat → List (Nat × List Nat)
  | [], k, v => [(k, v)]
  | p :: rest, k, v => if p.1 = k then (k, v) :: rest else p :: cdictSet rest k v

/-- `del clusters[k]`. -/
def cdictDel : List (Nat × List Nat) → Nat → List (Nat × List Nat)
  | [], _ => []
  | p :: rest, k => if p.1 = k then rest else p :: cdictDel rest k

/-- The ordered pairs `(cluster_ids[i], cluster_ids[j])` for `i < j`, as the
double loop of `cluster_requirements` enumerates them. -/
def clusterPairs : List Nat → List (Nat × Nat)
  | [] => []
  | i :: rest => rest.map (fun j => (i, j)) ++ clusterPairs rest

/-- One full pass of the `while changed` loop body: iterate over the ordered
pairs of the keys snapshot, skip pairs whose clusters were deleted earlier in
the pass, merge (`extend` then `del`) when the average similarity is
`>= threshold`, and report whether anything changed. -/
def mergePass (similarity_matrix : Nat → Nat → ℚ) (threshold : ℚ)
    (clusters : List (Nat × List Nat)) : List (Nat × List Nat) × Bool :=
  (clusterPairs (cdictKeys clusters)).foldl
    (fun st pr =>
      if (cdictKeys st.1).contains pr.1 && (cdictKeys st.1).contains pr.2 then
        let avg_sim := compute_cluster_similarity
          (cdictGet st.1 pr.1) (cdictGet st.1 pr.2) similarity_matrix
        if threshold ≤ avg_sim then
          (cdictDel (cdictSet st.1 pr.1
            (cdictGet st.1 pr.1 ++ cdictGet st.1 pr.2)) pr.2, true)
        else st
      else st)
    (clusters, false)

/-- The `while changed` loop.  Each pass that reports a change performs at
least one merge and so removes at least one cluster; with `n` initial
clusters at most `n` passes run before a pass reports no change, so fuel
`n + 1` realizes the full loop. -/
def clusterLoop (similarity_matrix : Nat → Nat → ℚ) (threshold : ℚ) :
    Nat → List (Nat × List Nat) → List (Nat × List Nat)
  | 0, clusters => clusters
  | fuel + 1, clusters =>
      let st := mergePass similarity_matrix threshold clusters
      if st.2 then clusterLoop similarity_matrix threshold fuel st.1 else st.1

/-- `cluster_requirements` on `n` items (requirements are only used through
their count and the similarity matrix): singleton initialization, iterated
merge passes, then re-indexing of the surviving clusters with sequential ids. -/
def cluster_requirements (n : Nat) (similarity_matrix : Nat → Nat → ℚ)
    (threshold : ℚ) : List (Nat × List Nat) :=
  if n = 0 then []
  else
    let clusters := (List.range n).map (fun i => (i, [i]))
    let final := clusterLoop similarity_matrix threshold (n + 1) clusters
    (final.map Prod.snd).enum

/-- **C2.** Clustering threshold boundary: two singleton clusters whose
pairwise similarity is exactly the threshold merge (the comparison is `>=`),
and they do not merge when the similarity is strictly below the threshold. -/
theorem clustering_threshold_boundary (similarity_matrix : Nat → Nat → ℚ)
    (t : ℚ) :
    (t ≤ similarity_matrix 0 1 →
      cluster_requirements 2 similarity_matrix t = [(0, [0, 1])]) ∧
    (similarity_matrix 0 1 < t →
      cluster_requirements 2 similarity_matrix t = [(0, [0]), (1, [1])]) := by
  constructor
  · intro h
    simp [cluster_requirements, clusterLoop, mergePass, clusterPairs, cdictKeys,
      cdictGet, cdictSet, cdictDel, compute_cluster_similarity, h, List.enum,
      List.enumFrom]
  · intro h
    have h2 : ¬ t ≤ similarity_matrix 0 1 := not_le.mpr h
    simp [cluster_requirements, clusterLoop, mergePass, clusterPairs, cdictKeys,
      cdictGet, cdictSet, cdictDel, compute_cluster_similarity, h2, List.enum,
      List.enumFrom]

/-- Witness for C2: at similarity exactly equal to the threshold, the two
items merge. -/
theorem clustering_threshold_boundary_witness :
    (1 : ℚ) ≤ (fun _ _ => (1 : ℚ)) 0 1 ∧
    cluster_requirements 2 (fun _ _ => (1 : ℚ)) 1 = [(0, [0, 1])] :=
  ⟨by norm_num,
   (clustering_threshold_boundary (fun _ _ => (1 : ℚ)) 1).1 (by norm_num)⟩

/-! ### aggregation/clusterer.py — get_cluster_centroid /
select_most_representative -/

def vecAdd (v w : List ℚ) : List ℚ := List.zipWith (· + ·) v w

/-- `get_cluster_centroid`: `np.mean(cluster_embeddings, axis=0)`, the
elementwise mean of the member embeddings. -/
def get_cluster_centroid (cluster_members : List Nat)
    (embeddings : List (List ℚ)) : List ℚ :=
  let cluster_embeddings := cluster_members.map (fun i => embeddings.getD i [])
  match cluster_embeddings with
  | [] => []
  | r :: rs =>
      (rs.foldl vecAdd r).map (fun x => x / (cluster_members.length : ℚ))

def dotQ (v w : List ℚ) : ℚ := (List.zipWith (· * ·) v w).sum

/-- Model of sklearn `cosine_similarity([v], [w])[0][0]` over ℚ:
`⟨v,w⟩ / (‖v‖·‖w‖)`, with the square roots taken by `Rat.sqrt`.  This is
exact whenever both squared norms are perfect rational squares, which holds
for every concrete vector this file evaluates it on. -/
def cosine_similarity (v w : List ℚ) : ℚ :=
  dotQ v w / (Rat.sqrt (dotQ v v) * Rat.sqrt (dotQ w w))

/-- `select_most_representative`: start from
`best_idx = cluster_members[0]; best_sim = -1.0` and keep the first member
whose similarity to the centroid strictly exceeds the running best. -/
def select_most_representative (cluster_members : List Nat)
    (embeddings : List (List ℚ)) : Nat :=
  let centroid := get_cluster_centroid cluster_members embeddings
  (cluster_members.foldl
    (fun best idx =>
      let sim := cosine_similarity (embeddings.getD idx []) centroid
      if best.2 < sim then (idx, sim) else best)
    (cluster_members.headD 0, -1)).1

/-- The similarity of member `i` to the cluster centroid. -/
def memberSim (cluster_members : List Nat) (embeddings : List (List ℚ))
    (i : Nat) : ℚ :=
  cosine_similarity (embeddings.getD i [])
    (get_cluster_centroid cluster_members embeddings)

theorem ratSqrt_one : Rat.sqrt 1 = 1 := by
  norm_num [Rat.sqrt, Int.sqrt, Rat.mkRat_eq_div]

/-- Generic description of the selection fold: it returns either the initial
accumulator (when nothing beat the initial score) or the first entry
attaining the maximum. -/
theorem selectFold_spec (f : Nat → ℚ) :
    ∀ (l : List Nat) (b : Nat × ℚ),
      (l.foldl (fun best idx => if best.2 < f idx then (idx, f idx) else best) b
          = b ∧ ∀ i ∈ l, f i ≤ b.2) ∨
      (∃ pre i post, l = pre ++ i :: post ∧
        l.foldl (fun best idx => if best.2 < f idx then (idx, f idx) else best) b
          = (i, f i) ∧
        b.2 < f i ∧ (∀ j ∈ pre, f j < f i) ∧ (∀ j ∈ l, f j ≤ f i))
  | [], b => Or.inl ⟨rfl, by simp⟩
  | a :: t, b => by
      rw [List.foldl_cons]
      by_cases hba : b.2 < f a
      · rw [if_pos hba]
        rcases selectFold_spec f t (a, f a) with ⟨heq, hall⟩ |
          ⟨pre, i, post, hd, heq, hlt, hpre, hall⟩
        · right
          refine ⟨[], a, t, rfl, heq, hba, by simp, ?_⟩
          intro j hj
          rcases List.mem_cons.mp hj with h | h
          · simp [h]
          · simpa using hall j h
        · right
          have hlt' : f a < f i := by simpa using hlt
          refine ⟨a :: pre, i, post, by simp [hd], heq,
            lt_trans hba hlt', ?_, ?_⟩
          · intro j hj
            rcases List.mem_cons.mp hj with h | h
            · rw [h]; exact hlt'
            · exact hpre j h
          · intro j hj
            rcases List.mem_cons.mp hj with h | h
            · rw [h]; exact le_of_lt hlt'
            · exact hall j h
      · rw [if_neg hba]
        have hab : f a ≤ b.2 := not_lt.mp hba
        rcases selectFold_spec f t b with ⟨heq, hall⟩ |
          ⟨pre, i, post, hd, heq, hlt, hpre, hall⟩
        · left
          refine ⟨heq, ?_⟩
          intro j hj
          rcases List.mem_cons.mp hj with h | h
          · rw [h]; exact hab
          · exact hall j h
        · right
          refine ⟨a :: pre, i, post, by simp [hd], heq, hlt, ?_, ?_⟩
          · intro j hj
            rcases List.mem_cons.mp hj with h | h
            · rw [h]; exact lt_of_le_of_lt hab hlt
            · exact hpre j h
          · intro j hj
            rcases List.mem_cons.mp hj with h | h
            · rw [h]; exact le_of_lt (lt_of_le_of_lt hab hlt)
            · exact hall j h

/-- **C6 amended.** The canonical member is the one with the highest
similarity to the centroid, but ties are broken by the earliest *position in
the cluster's member list* (which is not necessarily the lowest original item
index, since merged member lists need not be sorted): the selected member
occurs at a position before which every member has strictly smaller
similarity.  The `-1 ≤` hypothesis records that cosine similarities are at
least `-1`. -/
theorem representative_argmax (cluster_members : List Nat)
    (embeddings : List (List ℚ)) (hne : cluster_members ≠ [])
    (hbound : ∀ i ∈ cluster_members, -1 ≤ memberSim cluster_members embeddings i) :
    ∃ pre post,
      cluster_members =
        pre ++ select_most_representative cluster_members embeddings :: post ∧
      (∀ j ∈ pre, memberSim cluster_members embeddings j <
        memberSim cluster_members embeddings
          (select_most_representative cluster_members embeddings)) ∧
      (∀ j ∈ cluster_members, memberSim cluster_members embeddings j ≤
        memberSim cluster_members embeddings
          (select_most_representative cluster_members embeddings)) := by
  rcases cluster_members with _ | ⟨m0, rest⟩
  · exact absurd rfl hne
  have hsel : select_most_representative (m0 :: rest) embeddings =
      ((m0 :: rest).foldl
        (fun best idx =>
          if best.2 < memberSim (m0 :: rest) embeddings idx
          then (idx, memberSim (m0 :: rest) embeddings idx) else best)
        (m0, -1)).1 := rfl
  rcases selectFold_spec (memberSim (m0 :: rest) embeddings) (m0 :: rest)
      (m0, -1)
    with ⟨heq, hall⟩ | ⟨pre, i, post, hd, heq, hlt, hpre, hall⟩
  · have hres : select_most_representative (m0 :: rest) embeddings = m0 := by
      rw [hsel, heq]
    refine ⟨[], rest, by simp [hres], by simp, ?_⟩
    intro j hj
    have h1 : memberSim (m0 :: rest) embeddings j ≤ -1 := hall j hj
    have h2 : -1 ≤ memberSim (m0 :: rest) embeddings m0 := hbound m0 (by simp)
    rw [hres]
    exact le_trans h1 h2
  · have hres : select_most_representative (m0 :: rest) embeddings = i := by
      rw [hsel, heq]
    refine ⟨pre, post, by rw [hres]; exact hd, ?_, ?_⟩
    · intro j hj
      rw [hres]
      exact hpre j hj
    · intro j hj
      rw [hres]
      exact hall j hj

/-- Witness for C6 at a concrete cluster. -/
theorem representative_argmax_witness :
    ([0, 1] : List Nat) ≠ [] ∧
    (∀ i ∈ ([0, 1] : List Nat), -1 ≤ memberSim [0, 1] [[1], [1]] i) ∧
    (∃ pre post, ([0, 1] : List Nat) =
        pre ++ select_most_representative [0, 1] [[1], [1]] :: post ∧
      (∀ j ∈ pre, memberSim [0, 1] [[1], [1]] j <
        memberSim [0, 1] [[1], [1]]
          (select_most_representative [0, 1] [[1], [1]])) ∧
      (∀ j ∈ ([0, 1] : List Nat), memberSim [0, 1] [[1], [1]] j ≤
        memberSim [0, 1] [[1], [1]]
          (select_most_representative [0, 1] [[1], [1]]))) := by
  have hb : ∀ i ∈ ([0, 1] : List Nat), -1 ≤ memberSim [0, 1] [[1], [1]] i := by
    intro i hi
    fin_cases hi <;>
      norm_num [memberSim, get_cluster_centroid, cosine_similarity, dotQ,
        vecAdd, ratSqrt_one]
  exact ⟨by decide, hb, representative_argmax [0, 1] [[1], [1]] (by decide) hb⟩

/-- The tie-break rule the specification claims for representative selection
(C6, written from the spec's words): among members tied for the highest
similarity, the one with the lowest original item index is selected. -/
@[reducible] def representativeTieClaim (cluster_members : List Nat)
    (embeddings : List (List ℚ)) : Prop :=
  ∀ m ∈ cluster_members,
    memberSim cluster_members embeddings m =
      memberSim cluster_members embeddings
        (select_most_representative cluster_members embeddings) →
    select_most_representative cluster_members embeddings ≤ m

/-- **C6 counterexample.** For the cluster member list `[2, 1]` with identical
embeddings (so both members tie at similarity 1 to the centroid), the code
selects member 2 (the first in the list), not the lowest index 1. -/
theorem representative_tie_counterexample :
    ¬ representativeTieClaim [2, 1] [[1], [1], [1]] := by
  intro h
  have hsel : select_most_representative [2, 1] [[1], [1], [1]] = 2 := by
    norm_num [select_most_representative, get_cluster_centroid,
      cosine_similarity, dotQ, vecAdd, ratSqrt_one]
  have hs1 : memberSim [2, 1] [[1], [1], [1]] 1 = 1 := by
    norm_num [memberSim, get_cluster_centroid, cosine_similarity, dotQ, vecAdd,
      ratSqrt_one]
  have hs2 : memberSim [2, 1] [[1], [1], [1]] 2 = 1 := by
    norm_num [memberSim, get_cluster_centroid, cosine_similarity, dotQ, vecAdd,
      ratSqrt_one]
  have h2 := h 1 (by simp) (by rw [hsel, hs1, hs2])
  rw [hsel] at h2
  omega

/-! ### indexing/vector_index.py — VectorIndex.build

`build` first deletes and recreates the `chunks` collection, then generates
embeddings, then adds the new chunk ids in batches of `batch_size` with
repeated `collection.add` calls.  We model the observable collection contents
(the chunk-id set a search over the namespace would return from) as a list of
ids, and record the trace of observable states the build passes through; a
build that fails mid-way leaves the store at one of these intermediate
states. -/

/-- Observable states of the `collection.add` loop
(`for i in range(0, len(chunks), batch_size): collection.add(...)`), starting
from contents `acc` with the ids in `rest` still to add.  The fuel is the
number of remaining ids, which bounds the loop for every `batch_size ≥ 1`;
Python's `range` raises on a zero step, so `batch_size = 0` never runs. -/
def addStatesF : Nat → Nat → List Nat → List Nat → List (List Nat)
  | 0, _, acc, _ => [acc]
  | fuel + 1, bs, acc, rest =>
      if rest.isEmpty then [acc]
      else acc :: addStatesF fuel bs (acc ++ rest.take bs) (rest.drop bs)

def addStates (bs : Nat) (ids : List Nat) : List (List Nat) :=
  addStatesF ids.length bs [] ids

/-- The trace of observable contents during `VectorIndex.build`: the old
contents before `delete_collection`, then every state of the add loop — the
freshly recreated empty collection, each partially filled state, and the
complete new contents. -/
def buildStates (old newIds : List Nat) (bs : Nat) : List (List Nat) :=
  old :: addStates bs newIds

theorem addStatesF_mem_prefix :
    ∀ (fuel bs : Nat) (acc rest : List Nat), rest.length ≤ fuel → 1 ≤ bs →
      ∀ s ∈ addStatesF fuel bs acc rest, ∃ k, s = acc ++ rest.take k
  | 0, bs, acc, rest => by
      intro hlen _ s hs
      have hre : rest = [] := List.eq_nil_of_length_eq_zero (Nat.le_zero.mp hlen)
      subst hre
      simp [addStatesF] at hs
      exact ⟨0, by simp [hs]⟩
  | fuel + 1, bs, acc, rest => by
      intro hlen hbs s hs
      by_cases hre : rest.isEmpty
      · rw [addStatesF, if_pos hre] at hs
        simp at hs
        exact ⟨0, by simp [hs]⟩
      · rw [addStatesF, if_neg hre] at hs
        rcases List.mem_cons.mp hs with h | h
        · exact ⟨0, by simp [h]⟩
        · have hlen' : (rest.drop bs).length ≤ fuel := by
            rw [List.length_drop]
            omega
          rcases addStatesF_mem_prefix fuel bs (acc ++ rest.take bs)
              (rest.drop bs) hlen' hbs s h with ⟨k, hk⟩
          refine ⟨bs + k, ?_⟩
          rw [hk, List.take_add, List.append_assoc]

theorem addStatesF_mem_full :
    ∀ (fuel bs : Nat) (acc rest : List Nat), rest.length ≤ fuel → 1 ≤ bs →
      acc ++ rest ∈ addStatesF fuel bs acc rest
  | 0, bs, acc, rest => by
      intro hlen _
      have hre : rest = [] := List.eq_nil_of_length_eq_zero (Nat.le_zero.mp hlen)
      subst hre
      simp [addStatesF]
  | fuel + 1, bs, acc, rest => by
      intro hlen hbs
      by_cases hre : rest.isEmpty
      · have hre' : rest = [] := List.isEmpty_iff.mp hre
        subst hre'
        simp [addStatesF]
      · rw [addStatesF, if_neg hre]
        apply List.mem_cons_of_mem
        have hlen' : (rest.drop bs).length ≤ fuel := by
          rw [List.length_drop]
          have h1 : 0 < rest.length := by
            cases rest
            · simp at hre
            · simp
          omega
        have := addStatesF_mem_full fuel bs (acc ++ rest.take bs)
          (rest.drop bs) hlen' hbs
        rwa [List.append_assoc, List.take_append_drop] at this

/-- **C7 counterexample.** Rebuilding from old contents `[1]` to new contents
`[2, 3]` with batch size 1 passes through the observable states `[]` (after
the delete) and `[2]` (after the first add batch); a failure there leaves a
store that is neither the complete old contents nor the complete new ones. -/
theorem rebuild_atomicity_counterexample :
    ¬ (∀ s ∈ buildStates [1] [2, 3] 1, s = [1] ∨ s = [2, 3]) := by
  decide

/-- **C7 amended.** The rebuild is not atomic, but it never mixes snapshots:
every observable state during a rebuild is either the complete pre-rebuild
contents (before the delete) or a batch-aligned prefix of the post-rebuild id
sequence (possibly empty, possibly complete); a failed rebuild therefore
leaves a prefix of the new contents, never old and new entries together.  The
complete new contents is the final trace state. -/
theorem rebuild_partial_states (old newIds : List Nat) (bs : Nat)
    (hbs : 1 ≤ bs) :
    (∀ s ∈ buildStates old newIds bs, s = old ∨ ∃ k, s = newIds.take k) ∧
    newIds ∈ buildStates old newIds bs := by
  constructor
  · intro s hs
    rcases List.mem_cons.mp hs with h | h
    · exact Or.inl h
    · rcases addStatesF_mem_prefix newIds.length bs [] newIds le_rfl hbs s h
        with ⟨k, hk⟩
      exact Or.inr ⟨k, by simpa using hk⟩
  · apply List.mem_cons_of_mem
    have := addStatesF_mem_full newIds.length bs [] newIds le_rfl hbs
    simpa using this

/-- Witness for C7 at concrete inputs. -/
theorem rebuild_partial_states_witness :
    1 ≤ 1 ∧
    ((∀ s ∈ buildStates [1] [2, 3] 1, s = [1] ∨ ∃ k, s = [2, 3].take k) ∧
     [2, 3] ∈ buildStates [1] [2, 3] 1) :=
  ⟨le_rfl, rebuild_partial_states [1] [2, 3] 1 le_rfl⟩

/-! ### qa/pattern_qa.py — answer_comparative_question

`pattern_counts` is an insertion-ordered dict with five fixed keys, read from
the database; we take the five counts as inputs. -/

def pattern_counts (reqs succ fail risks constr : Nat) : List (String × Nat) :=
  [("Requirements", reqs), ("Success Points", succ), ("Failure Points", fail),
   ("Risks", risks), ("Constraints", constr)]

/-- `max(pattern_counts, key=pattern_counts.get)`: the first key attaining the
maximal count (Python's `max` keeps the earlier element on ties). -/
def max_type (counts : List (String × Nat)) : String :=
  match counts with
  | [] => ""
  | c :: cs => (cs.foldl (fun best p => if best.2 < p.2 then p else best) c).1

/-- Python's `<` on strings: lexicographic by code point. -/
def pyStrLt : List Char → List Char → Bool
  | [], [] => false
  | [], _ :: _ => true
  | _ :: _, [] => false
  | a :: as, b :: bs =>
      if a.toNat < b.toNat then true
      else if b.toNat < a.toNat then false
      else pyStrLt as bs

/-- Python's `<` on `(str, int)` tuples: lexicographic, name first. -/
def pyPairLt (p q : String × Nat) : Bool :=
  pyStrLt p.1.data q.1.data || (p.1.data == q.1.data && decide (p.2 < q.2))

/-- `min((k, v) for k, v in pattern_counts.items() if v > 0)`: the minimum
*tuple*, i.e. the lexicographically smallest (name, count) pair among the
non-zero entries — not the entry with the smallest count.  (The empty case
raises in Python; it is unreachable because the `total == 0` guard returns
earlier.) -/
def min_type (counts : List (String × Nat)) : String × Nat :=
  match counts.filter (fun p => 0 < p.2) with
  | [] => ("", 0)
  | c :: cs => cs.foldl (fun best p => if pyPairLt p best then p else best) c

/-- `success_count / (failure_count + 1)`. -/
def success_failure_ratio (success_count failure_count : Nat) : ℚ :=
  (success_count : ℚ) / ((failure_count : ℚ) + 1)

/-- **C8.** With counts Requirements=5, Success Points=0, Failure Points=0,
Risks=0, Constraints=10 (total 15 ≠ 0): the non-zero type with the minimum
count is Requirements (5), yet the code's `min` over (name, count) tuples
reports ("Constraints", 10) — the lexicographically smallest *name* — as
"Least common".  The most-common computation is by count, as claimed. -/
theorem comparative_min_type_eval :
    min_type (pattern_counts 5 0 0 0 10) = ("Constraints", 10) ∧
    ("Requirements", 5) ∈ (pattern_counts 5 0 0 0 10).filter (fun p => 0 < p.2) ∧
    (∀ p ∈ (pattern_counts 5 0 0 0 10).filter (fun p => 0 < p.2), 5 ≤ p.2) ∧
    (5 : Nat) < 10 ∧
    max_type (pattern_counts 5 0 0 0 10) = "Constraints" := by
  refine ⟨by decide, by decide, by decide, by decide, by decide⟩

/-! ### indexing/bm25_index.py — BM25Index.search

The BM25 scorer itself is the external `rank_bm25.BM25Okapi` object; we model
it as a function from the tokenized query to the per-chunk score list (the
library guarantees one score per corpus document).  The chunk list and the
sorting/tie-breaking logic are the repository's own code. -/

def pyLowerString (s : String) : String := ⟨s.data.map Char.toLower⟩

/-- Python `str.split()`: split on whitespace runs, dropping empty pieces. -/
def pySplitWs (s : String) : List String :=
  (s.split (fun c => c.isWhitespace)).filter (fun t => t ≠ "")

/-- `query.lower().split()`. -/
def tokenizeQuery (query : String) : List String := pySplitWs (pyLowerString query)

structure BM25Index where
  chunks : List String
  scoresFn : List String → List ℚ

/-- `sorted(range(len(scores)), key=lambda i: scores[i], reverse=True)[:top_k]`:
stable descending sort of the corpus indices by score, then truncation. -/
def bm25TopIndices (scores : List ℚ) (top_k : Nat) : List Nat :=
  ((List.range scores.length).insertionSort
    (fun i j => scores.getD j 0 ≤ scores.getD i 0)).take top_k

/-- `BM25Index.search`: tokenize the query, score, and return the top chunks
with their scores. -/
def BM25Index.search (idx : BM25Index) (query : String) (top_k : Nat) :
    List (String × ℚ) :=
  let tokenized_query := tokenizeQuery query
  let scores := idx.scoresFn tokenized_query
  (bm25TopIndices scores top_k).map
    (fun i => (idx.chunks.getD i "", scores.getD i 0))

/-- **C9.** BM25 tie-breaking: for every index and query, the returned corpus
positions are sorted by score descending, and positions with equal scores
appear in ascending corpus (insertion) order; `search` maps those positions
to their chunks and scores. -/
theorem bm25_search_tie_break (idx : BM25Index) (query : String) (top_k : Nat) :
    (bm25TopIndices (idx.scoresFn (tokenizeQuery query)) top_k).Pairwise
      (fun i j => (idx.scoresFn (tokenizeQuery query)).getD j 0 <
          (idx.scoresFn (tokenizeQuery query)).getD i 0 ∨
        ((idx.scoresFn (tokenizeQuery query)).getD i 0 =
          (idx.scoresFn (tokenizeQuery query)).getD j 0 ∧ i < j)) ∧
    idx.search query top_k =
      (bm25TopIndices (idx.scoresFn (tokenizeQuery query)) top_k).map
        (fun i => (idx.chunks.getD i "",
          (idx.scoresFn (tokenizeQuery query)).getD i 0)) := by
  refine ⟨?_, rfl⟩
  set scores := idx.scoresFn (tokenizeQuery query) with hscores
  haveI hTot : IsTotal Nat (fun i j => scores.getD j 0 ≤ scores.getD i 0) :=
    ⟨fun i j => le_total (scores.getD j 0) (scores.getD i 0)⟩
  haveI hTr : IsTrans Nat (fun i j => scores.getD j 0 ≤ scores.getD i 0) :=
    ⟨fun _ _ _ hab hbc => le_trans hbc hab⟩
  have hsorted : ((List.range scores.length).insertionSort
      (fun i j => scores.getD j 0 ≤ scores.getD i 0)).Pairwise
      (fun i j => scores.getD j 0 ≤ scores.getD i 0) :=
    List.sorted_insertionSort _ _
  have htop : (bm25TopIndices scores top_k).Pairwise
      (fun i j => scores.getD j 0 ≤ scores.getD i 0) :=
    hsorted.sublist (List.take_sublist _ _)
  rw [List.pairwise_iff_forall_sublist]
  intro a b hab
  have hle : scores.getD b 0 ≤ scores.getD a 0 :=
    List.pairwise_iff_forall_sublist.mp htop hab
  by_cases hlt : scores.getD b 0 < scores.getD a 0
  · exact Or.inl hlt
  · have heq : scores.getD a 0 = scores.getD b 0 :=
      le_antisymm (not_lt.mp hlt) hle
    refine Or.inr ⟨heq, ?_⟩
    have hab' : List.Sublist [a, b] ((List.range scores.length).insertionSort
        (fun i j => scores.getD j 0 ≤ scores.getD i 0)) :=
      hab.trans (List.take_sublist _ _)
    have hinput : List.Sublist [a, b] (List.range scores.length) :=
      stable_tie_insertionSort _ (List.nodup_range _) hab' heq.le
    exact List.pairwise_iff_forall_sublist.mp (List.pairwise_lt_range _) hinput

/-! ### llm/ollama_client.py and llm/embedder.py — embed_batch

`OllamaClient.embed` posts a batch to the Ollama API.  The raw HTTP response
is modelled as a function from the batch to `Option` of an embedding list
(`none` = request exception); `embed` returns `[]` for an empty input and
raises when the response count mismatches the input count — those checks are
repository code and are embedded here. -/

/-- `OllamaClient.embed`: empty input short-circuits; a response whose length
differs from the input raises (modelled as `none`). -/
def clientEmbed (raw : List String → Option (List (List ℚ)))
    (texts : List String) : Option (List (List ℚ)) :=
  if texts.isEmpty then some []
  else
    match raw texts with
    | none => none
    | some embeddings =>
        if embeddings.length = texts.length then some embeddings else none

/-- `fallback_dim = len(embeddings[0]) if embeddings else 768`. -/
def embedFallbackDim : List (List ℚ) → Nat
  | [] => 768
  | e :: _ => e.length

/-- One iteration of the `embed_batch` loop on the accumulated embeddings:
append the client result, or — when the call raised —
`[[0.0] * fallback_dim] * len(batch)`. -/
def embedStep (acc : List (List ℚ)) (batch_len : Nat) :
    Option (List (List ℚ)) → List (List ℚ)
  | some batch_embeddings => acc ++ batch_embeddings
  | none =>
      acc ++ List.replicate batch_len (List.replicate (embedFallbackDim acc) 0)

/-- The `embed_batch` loop over slices of size `bs`.  The fuel is the number
of remaining texts (enough whenever `bs ≥ 1`; Python's `range` raises on step
0, so that case never runs). -/
def embedBatchLoop (raw : List String → Option (List (List ℚ))) (bs : Nat) :
    Nat → List String → List (List ℚ) → List (List ℚ)
  | 0, _, acc => acc
  | fuel + 1, rest, acc =>
      if rest.isEmpty then acc
      else
        embedBatchLoop raw bs fuel (rest.drop bs)
          (embedStep acc (rest.take bs).length (clientEmbed raw (rest.take bs)))

/-- `embed_batch` (after the health check): empty input returns `[]`,
otherwise the batch loop runs. -/
def embed_batch (raw : List String → Option (List (List ℚ)))
    (texts : List String) (batch_size : Nat) : List (List ℚ) :=
  if texts.isEmpty then []
  else embedBatchLoop raw batch_size texts.length texts []

/-- A raw embedding service that only answers the batch `["b"]`, with
2-dimensional embeddings. -/
def embedRawExample : List String → Option (List (List ℚ))
  | ["b"] => some [[1, 2]]
  | _ => none

set_option maxRecDepth 8192 in
/-- **C10 counterexample.** With batch size 1 and texts `["a","b","c"]`, where
the first call fails, the second succeeds with dimension 2 and the third
fails: the code's third fallback vector has dimension
`len(embeddings[0]) = 768` (the first *accumulated* vector is the 768-zero
fallback from the failed first batch), not dimension 2 of the first
*successfully produced* embedding as the claim states. -/
theorem embed_batch_dim_counterexample :
    (embed_batch embedRawExample ["a", "b", "c"] 1).getD 2 [] =
      List.replicate 768 (0 : ℚ) ∧
    (embed_batch embedRawExample ["a", "b", "c"] 1).getD 2 [] ≠
      List.replicate 2 (0 : ℚ) := by
  decide

theorem clientEmbed_length (raw : List String → Option (List (List ℚ)))
    (texts : List String) (es : List (List ℚ))
    (h : clientEmbed raw texts = some es) : es.length = texts.length := by
  unfold clientEmbed at h
  by_cases he : texts.isEmpty
  · rw [if_pos he] at h
    cases h
    simp [List.isEmpty_iff.mp he]
  · rw [if_neg he] at h
    cases hraw : raw texts with
    | none => rw [hraw] at h; cases h
    | some es' =>
        rw [hraw] at h
        by_cases hlen : es'.length = texts.length
        · simp only [hlen, if_true] at h
          obtain rfl := Option.some.inj h
          exact hlen
        · simp [hlen] at h

theorem embedBatchLoop_length (raw : List String → Option (List (List ℚ)))
    (bs : Nat) (hbs : 1 ≤ bs) :
    ∀ (fuel : Nat) (rest : List String) (acc : List (List ℚ)),
      rest.length ≤ fuel →
      (embedBatchLoop raw bs fuel rest acc).length = acc.length + rest.length
  | 0, rest, acc => by
      intro hlen
      have : rest = [] := List.eq_nil_of_length_eq_zero (Nat.le_zero.mp hlen)
      subst this
      simp [embedBatchLoop]
  | fuel + 1, rest, acc => by
      intro hlen
      by_cases hre : rest.isEmpty
      · have hre' : rest = [] := List.isEmpty_iff.mp hre
        subst hre'
        simp [embedBatchLoop]
      · rw [embedBatchLoop, if_neg hre]
        have hrest : 0 < rest.length := by
          cases rest
          · simp at hre
          · simp
        have hlen' : (rest.drop bs).length ≤ fuel := by
          rw [List.length_drop]
          omega
        have hbatch : (rest.take bs).length = min bs rest.length :=
          List.length_take _ _
        rw [embedBatchLoop_length raw bs hbs fuel (rest.drop bs) _ hlen']
        cases hmatch : clientEmbed raw (rest.take bs) with
        | some es =>
            have hes := clientEmbed_length raw _ es hmatch
            simp only [embedStep, List.length_append, hes, hbatch,
              List.length_drop]
            omega
        | none =>
            simp only [embedStep, List.length_append, List.length_replicate,
              hbatch, List.length_drop]
            omega

/-- **C10 amended.** For every raw embedding service, text list and batch
size ≥ 1, `embed_batch` returns exactly one embedding per input text (failed
batches contribute zero vectors instead of dropping texts); the zero vectors
of a failed batch have the dimension of the first *accumulated* embedding —
which is an earlier fallback vector of dimension 768 when the first batch
failed — or 768 when no embeddings have been produced yet, not necessarily
the dimension of the first successfully produced embedding. -/
theorem embed_batch_length (raw : List String → Option (List (List ℚ)))
    (texts : List String) (batch_size : Nat) (hbs : 1 ≤ batch_size) :
    (embed_batch raw texts batch_size).length = texts.length := by
  unfold embed_batch
  by_cases he : texts.isEmpty
  · rw [if_pos he]
    simp [List.isEmpty_iff.mp he]
  · rw [if_neg he]
    rw [embedBatchLoop_length raw batch_size hbs texts.length texts [] le_rfl]
    simp

/-- Witness for C10 at concrete inputs. -/
theorem embed_batch_length_witness :
    1 ≤ 1 ∧
    (embed_batch embedRawExample ["a", "b", "c"] 1).length =
      (["a", "b", "c"] : List String).length :=
  ⟨le_rfl, embed_batch_length embedRawExample ["a", "b", "c"] 1 le_rfl⟩

/-! ### extraction/normalizer.py — normalize_requirement

The regex substitutions are embedded as explicit scanners over character
lists, mirroring Python `re.sub` semantics: left-to-right scan over the
original string, leftmost match, no rescanning of replacement text, `\\b`
via word-character tracking, greedy quantifiers with the backtracking the
patterns permit. -/

def isWordChar (c : Char) : Bool := c.isAlphanum || c = '_'

def pyIsSpace (c : Char) : Bool :=
  c = ' ' || c = '\t' || c = '\n' || c = '\r' || c = '\x0b' || c = '\x0c'

/-- `\b` holds after the match when no word character follows. -/
def noWordAhead : List Char → Bool
  | [] => true
  | c :: _ => !isWordChar c

/-- `\b\d+(\.\d+)?\b` at the current position (the scanner established the
left boundary): greedy digits, optional `.digits` group, with the regex
backtracking that drops the optional group when the right boundary fails
(the boundary after the integer part is then the non-word `.` itself). -/
def numMatch : List Char → Option (List Char)
  | [] => none
  | c :: cs =>
      if c.isDigit then
        let rest1 := (c :: cs).dropWhile Char.isDigit
        match rest1 with
        | '.' :: t =>
            if (t.headD ' ').isDigit then
              let rest2 := t.dropWhile Char.isDigit
              if noWordAhead rest2 then some rest2 else some rest1
            else some rest1
        | _ => if noWordAhead rest1 then some rest1 else none
      else none

def date1Core : List Char → Option (List Char)
  | a :: b :: c :: d :: s1 :: e :: f :: s2 :: g :: h :: rest =>
      if a.isDigit && b.isDigit && c.isDigit && d.isDigit &&
          (s1 = '-' || s1 = '/') && e.isDigit && f.isDigit &&
          (s2 = '-' || s2 = '/') && g.isDigit && h.isDigit &&
          noWordAhead rest
      then some rest else none
  | _ => none

/-- `\b\d{4}(-|/)\d{2}(-|/)\d{2}\b` at the current position. -/
def date1Match : List Char → Option (List Char)
  | [] => none
  | c :: cs => if c.isDigit then date1Core (c :: cs) else none

def sepMatch : List Char → Option (List Char)
  | c :: rest => if c = '-' || c = '/' then some rest else none
  | [] => none

def digitsExact : Nat → List Char → Option (List Char)
  | 0, l => some l
  | _ + 1, [] => none
  | n + 1, c :: rest => if c.isDigit then digitsExact n rest else none

/-- `\d{1,2}(-|/)`, greedy with backtracking (two digits preferred). -/
def d12sep (l : List Char) : Option (List Char) :=
  match digitsExact 2 l with
  | some r =>
      match sepMatch r with
      | some r' => some r'
      | none =>
          match digitsExact 1 l with
          | some r1 => sepMatch r1
          | none => none
  | none =>
      match digitsExact 1 l with
      | some r1 => sepMatch r1
      | none => none

def date2TailAt (n : Nat) (l : List Char) : Option (List Char) :=
  match digitsExact n l with
  | some r => if noWordAhead r then some r else none
  | none => none

/-- `\d{2,4}\b`, greedy with backtracking (4, then 3, then 2 digits). -/
def date2Tail (l : List Char) : Option (List Char) :=
  match date2TailAt 4 l with
  | some r => some r
  | none =>
      match date2TailAt 3 l with
      | some r => some r
      | none => date2TailAt 2 l

/-- `\b\d{1,2}(-|/)\d{1,2}(-|/)\d{2,4}\b` at the current position. -/
def date2Match (l : List Char) : Option (List Char) :=
  match d12sep l with
  | some r1 =>
      match d12sep r1 with
      | some r2 => date2Tail r2
      | none => none
  | none => none

/-- `\b(a|an|the)\b` at the current position, alternatives tried in order. -/
def articleMatch : List Char → Option (List Char)
  | 'a' :: rest =>
      if noWordAhead rest then some rest
      else
        match rest with
        | 'n' :: rest2 => if noWordAhead rest2 then some rest2 else none
        | _ => none
  | 't' :: 'h' :: 'e' :: rest => if noWordAhead rest then some rest else none
  | _ => none

/-- Consume the literal word `w` at the head of `l`. -/
def stripWord : List Char → List Char → Option (List Char)
  | [], l => some l
  | _ :: _, [] => none
  | w :: ws, c :: cs => if c = w then stripWord ws cs else none

/-- `\s+` then the word `w2` then `\b`. -/
def phraseTail (w2 : List Char) (r : List Char) : Option (List Char) :=
  match r with
  | c :: _ =>
      if pyIsSpace c then
        match stripWord w2 (r.dropWhile pyIsSpace) with
        | some rest => if noWordAhead rest then some rest else none
        | none => none
      else none
  | [] => none

/-- `\b(stem₁|stem₂|…)\s+w2\b` at the current position (stems in regex
backtracking order, e.g. `needs` before `need` for `needs?`). -/
def phraseMatch (stems : List (List Char)) (w2 : List Char)
    (l : List Char) : Option (List Char) :=
  match stems with
  | [] => none
  | s :: ss =>
      match stripWord s l with
      | some r =>
          match phraseTail w2 r with
          | some rest => some rest
          | none => phraseMatch ss w2 l
      | none => phraseMatch ss w2 l

/-- `re.sub` for a pattern with a leading `\b` and a replacement text that is
never rescanned: scan left to right, tracking whether the previous original
character was a word character; every pattern used here both starts at a word
boundary and ends in a word character, so after a match the tracker is
`true`.  The fuel is the input length (every match consumes at least one
character). -/
def reScanF (tryMatch : List Char → Option (List Char)) (repl : List Char) :
    Nat → Bool → List Char → List Char
  | 0, _, l => l
  | _ + 1, _, [] => []
  | fuel + 1, prevW, c :: cs =>
      if !prevW then
        match tryMatch (c :: cs) with
        | some rest => repl ++ reScanF tryMatch repl fuel true rest
        | none => c :: reScanF tryMatch repl fuel (isWordChar c) cs
      else c :: reScanF tryMatch repl fuel (isWordChar c) cs

def reSub (tryMatch : List Char → Option (List Char)) (repl : List Char)
    (l : List Char) : List Char :=
  reScanF tryMatch repl l.length false l

/-- `re.sub(r'\s+', ' ', ·)`: collapse whitespace runs to single spaces. -/
def subWsF : Nat → List Char → List Char
  | 0, l => l
  | _ + 1, [] => []
  | fuel + 1, c :: cs =>
      if pyIsSpace c then ' ' :: subWsF fuel (cs.dropWhile pyIsSpace)
      else c :: subWsF fuel cs

def subWs (l : List Char) : List Char := subWsF l.length l

/-- Python `str.strip(chars)`. -/
def stripChars (set : List Char) (l : List Char) : List Char :=
  ((l.dropWhile (fun c => set.contains c)).reverse.dropWhile
    (fun c => set.contains c)).reverse

/-- Python `str.strip()` (whitespace). -/
def stripWs (l : List Char) : List Char :=
  ((l.dropWhile pyIsSpace).reverse.dropWhile pyIsSpace).reverse

def punctSet : List Char := ['.', ',', ';', ':', '!', '?']

/-- `normalize_requirement`, stage by stage in source order. -/
def normalize_requirement (s : String) : String :=
  let t0 := s.data.map Char.toLower
  let t1 := reSub numMatch "NUM".data t0
  let t2 := reSub date1Match "DATE".data t1
  let t3 := reSub date2Match "DATE".data t2
  let t4 := reSub articleMatch [] t3
  let t5 := subWs t4
  let t6 := stripChars punctSet t5
  let t7 := reSub (phraseMatch ["must".data] "have".data) "must".data t6
  let t8 := reSub (phraseMatch ["should".data] "have".data) "should".data t7
  let t9 := reSub (phraseMatch ["needs".data, "need".data] "to".data) "must".data t8
  let t10 := reSub (phraseMatch ["has".data] "to".data) "must".data t9
  let t11 := reSub (phraseMatch ["required".data] "to".data) "must".data t10
  let t12 := subWs t11
  ⟨stripWs t12⟩

/- Fixed-point machinery for the idempotence analysis. -/

/-- Whether the scanner would fire anywhere in `l` (starting with word-tracker
state `b`). -/
def scanHasMatch (tryMatch : List Char → Option (List Char)) :
    Bool → List Char → Bool
  | _, [] => false
  | prevW, c :: cs =>
      (!prevW && (tryMatch (c :: cs)).isSome) ||
        scanHasMatch tryMatch (isWordChar c) cs

theorem reScanF_id (tryMatch : List Char → Option (List Char))
    (repl : List Char) :
    ∀ (fuel : Nat) (b : Bool) (l : List Char), l.length ≤ fuel →
      scanHasMatch tryMatch b l = false → reScanF tryMatch repl fuel b l = l
  | 0, b, l => fun _ _ => rfl
  | fuel + 1, b, [] => fun _ _ => rfl
  | fuel + 1, b, c :: cs => by
      intro hlen hscan
      simp only [scanHasMatch, Bool.or_eq_false_iff, Bool.and_eq_false_iff]
        at hscan
      have hrec := hscan.2
      have hlen' : cs.length ≤ fuel := by
        simpa using Nat.le_of_succ_le_succ hlen
      have hih := reScanF_id tryMatch repl fuel (isWordChar c) cs hlen' hrec
      cases hb : b with
      | true =>
          rw [reScanF]
          simp [hb, hih]
      | false =>
          have hnone : tryMatch (c :: cs) = none := by
            rcases hscan.1 with h | h
            · rw [hb] at h; simp at h
            · exact Option.not_isSome_iff_eq_none.mp (by simp [h])
          rw [reScanF]
          simp [hb, hnone, hih]

/-- Every whitespace character is a plain space and no two are adjacent. -/
def wsNormal : List Char → Bool
  | [] => true
  | [c] => !pyIsSpace c || c == ' '
  | c :: d :: cs =>
      (if pyIsSpace c then (c == ' ') && !pyIsSpace d else true) &&
        wsNormal (d :: cs)

theorem subWsF_nil : ∀ fuel : Nat, subWsF fuel [] = [] := by
  intro fuel
  cases fuel <;> rfl

theorem subWsF_id :
    ∀ (fuel : Nat) (l : List Char), l.length ≤ fuel →
      wsNormal l = true → subWsF fuel l = l
  | 0, l => fun _ _ => rfl
  | fuel + 1, [] => fun _ _ => rfl
  | fuel + 1, [c] => by
      intro hlen hws
      simp only [wsNormal, Bool.or_eq_true, Bool.not_eq_true'] at hws
      rw [subWsF]
      by_cases hsp : pyIsSpace c
      · have hc : c = ' ' := by
          rcases hws with h | h
          · rw [h] at hsp; cases hsp
          · simpa using h
        simp [hsp, hc, List.dropWhile, subWsF_nil]
      · simp [hsp, subWsF_nil]
  | fuel + 1, c :: d :: cs => by
      intro hlen hws
      simp only [wsNormal, Bool.and_eq_true] at hws
      have hlen' : (d :: cs).length ≤ fuel := by
        simpa using Nat.le_of_succ_le_succ hlen
      rw [subWsF]
      by_cases hsp : pyIsSpace c
      · rw [if_pos hsp] at hws ⊢
        rcases hws with ⟨hcd, htail⟩
        rw [Bool.and_eq_true] at hcd
        have hc : c = ' ' := by simpa using hcd.1
        have hd : ¬ pyIsSpace d = true := by simpa using hcd.2
        have hdrop : (d :: cs).dropWhile pyIsSpace = d :: cs := by
          simp [List.dropWhile, hd]
        rw [hdrop, hc]
        rw [subWsF_id fuel (d :: cs) hlen' htail]
      · rw [if_neg hsp]
        rw [subWsF_id fuel (d :: cs) hlen' hws.2]

def headSafe (p : Char → Bool) : List Char → Bool
  | [] => true
  | c :: _ => !p c

theorem dropWhile_id (p : Char → Bool) (l : List Char)
    (h : headSafe p l = true) : l.dropWhile p = l := by
  cases l with
  | nil => rfl
  | cons c cs =>
      simp only [headSafe, Bool.not_eq_true'] at h
      simp [List.dropWhile, h]

theorem stripChars_id (set : List Char) (l : List Char)
    (h1 : headSafe (fun c => set.contains c) l = true)
    (h2 : headSafe (fun c => set.contains c) l.reverse = true) :
    stripChars set l = l := by
  unfold stripChars
  rw [dropWhile_id _ _ h1, dropWhile_id _ _ h2, List.reverse_reverse]

theorem stripWs_id (l : List Char)
    (h1 : headSafe pyIsSpace l = true)
    (h2 : headSafe pyIsSpace l.reverse = true) :
    stripWs l = l := by
  unfold stripWs
  rw [dropWhile_id _ _ h1, dropWhile_id _ _ h2, List.reverse_reverse]

theorem mapLower_id (l : List Char)
    (h : l.all (fun c => c.toLower == c) = true) :
    l.map Char.toLower = l := by
  induction l with
  | nil => rfl
  | cons c cs ih =>
      simp only [List.all_cons, Bool.and_eq_true, beq_iff_eq] at h
      simp [h.1, ih h.2]

/-- `normalize_requirement` fixes `y` when `y` is fully reduced: lowercase,
no substitution pattern fires, single-spaced, and no stripped character at
either end. -/
@[reducible] def normalFixed (y : String) : Prop :=
  y.data.all (fun c => c.toLower == c) = true ∧
  scanHasMatch numMatch false y.data = false ∧
  scanHasMatch date1Match false y.data = false ∧
  scanHasMatch date2Match false y.data = false ∧
  scanHasMatch articleMatch false y.data = false ∧
  wsNormal y.data = true ∧
  headSafe (fun c => punctSet.contains c) y.data = true ∧
  headSafe (fun c => punctSet.contains c) y.data.reverse = true ∧
  scanHasMatch (phraseMatch ["must".data] "have".data) false y.data = false ∧
  scanHasMatch (phraseMatch ["should".data] "have".data) false y.data = false ∧
  scanHasMatch (phraseMatch ["needs".data, "need".data] "to".data) false y.data
    = false ∧
  scanHasMatch (phraseMatch ["has".data] "to".data) false y.data = false ∧
  scanHasMatch (phraseMatch ["required".data] "to".data) false y.data = false ∧
  headSafe pyIsSpace y.data = true ∧
  headSafe pyIsSpace y.data.reverse = true

theorem normalize_fixed (y : String) (h : normalFixed y) :
    normalize_requirement y = y := by
  obtain ⟨h1, h2, h3, h4, h5, h6, h7, h8, h9, h10, h11, h12, h13, h14, h15⟩ := h
  unfold normalize_requirement reSub
  simp only [subWs, mapLower_id _ h1,
    reScanF_id numMatch "NUM".data y.data.length false y.data le_rfl h2,
    reScanF_id date1Match "DATE".data y.data.length false y.data le_rfl h3,
    reScanF_id date2Match "DATE".data y.data.length false y.data le_rfl h4,
    reScanF_id articleMatch [] y.data.length false y.data le_rfl h5,
    subWsF_id y.data.length y.data le_rfl h6,
    stripChars_id punctSet y.data h7 h8,
    reScanF_id (phraseMatch ["must".data] "have".data) "must".data
      y.data.length false y.data le_rfl h9,
    reScanF_id (phraseMatch ["should".data] "have".data) "should".data
      y.data.length false y.data le_rfl h10,
    reScanF_id (phraseMatch ["needs".data, "need".data] "to".data) "must".data
      y.data.length false y.data le_rfl h11,
    reScanF_id (phraseMatch ["has".data] "to".data) "must".data
      y.data.length false y.data le_rfl h12,
    reScanF_id (phraseMatch ["required".data] "to".data) "must".data
      y.data.length false y.data le_rfl h13,
    stripWs_id y.data h14 h15]

/-- `needle.startsWithList haystack`-style check: does `haystack` start with
`needle`? -/
def startsWithList : List Char → List Char → Bool
  | [], _ => true
  | _ :: _, [] => false
  | n :: ns, h :: hs => n == h && startsWithList ns hs

/-- Python's substring containment `needle in haystack`. -/
def containsSub (needle : List Char) : List Char → Bool
  | [] => needle.isEmpty
  | h :: hs => startsWithList needle (h :: hs) || containsSub needle hs

set_option maxRecDepth 8192 in
/-- **C3.** Evaluating the normalizer example: the date regexes run *after*
the number regex has already rewritten every boundary-delimited digit run, so
the output contains the `NUM-NUM-NUM` artifact and no `DATE` placeholder.
The claim's other parts (contains "must" and "NUM", no standalone article
"the") do hold. -/
theorem normalize_example_eval :
    normalize_requirement "The system MUST have 3 backups by 2024-01-01" =
      "system must NUM backups by NUM-NUM-NUM" ∧
    containsSub "must".data "system must NUM backups by NUM-NUM-NUM".data
      = true ∧
    containsSub "NUM".data "system must NUM backups by NUM-NUM-NUM".data
      = true ∧
    containsSub "the".data "system must NUM backups by NUM-NUM-NUM".data
      = false ∧
    containsSub "DATE".data "system must NUM backups by NUM-NUM-NUM".data
      = false ∧
    containsSub "NUM-NUM-NUM".data
      "system must NUM backups by NUM-NUM-NUM".data = true := by
  decide

/-- **C4 counterexample.** `normalize` is not idempotent: it rewrites "3" to
the uppercase placeholder "NUM", which a second application lowercases to
"num". -/
theorem normalize_idem_counterexample :
    normalize_requirement (normalize_requirement "3") ≠
      normalize_requirement "3" ∧
    normalize_requirement "3" = "NUM" ∧
    normalize_requirement (normalize_requirement "3") = "num" := by
  refine ⟨?_, by decide, by decide⟩
  decide

/-- **C4 amended.** Idempotence holds exactly when the first pass's output is
already fully reduced: `normalize(normalize(x)) = normalize(x)` whenever
`normalize(x)` is all-lowercase (no `NUM`/`DATE` placeholder), triggers none
of the substitution patterns (numbers, dates, standalone articles, modal
phrases), is single-spaced, and starts/ends with no stripped punctuation or
whitespace.  It fails in general (see the counterexample; further failures:
`normalize("must have have") = "must have"` but
`normalize("must have") = "must"`). -/
theorem normalize_conditional_idempotence (x : String)
    (h : normalFixed (normalize_requirement x)) :
    normalize_requirement (normalize_requirement x) = normalize_requirement x :=
  normalize_fixed _ h

/-- Witness for C4 at a concrete input. -/
theorem normalize_conditional_idempotence_witness :
    normalFixed (normalize_requirement "Hello World") ∧
    normalize_requirement (normalize_requirement "Hello World") =
      normalize_requirement "Hello World" :=
  ⟨by decide, normalize_conditional_idempotence "Hello World" (by decide)⟩

end Marianalyzer
